import Mathlib

/-!
Verification of the AST-mutation layer of the igniter_js repository.

The repository contains two parallel implementations of the JavaScript
transformation layer:

- an oxc-based one in src/native/igniter_js/src/parsers/javascript/ast.rs
  (exposed to the host through the NIF layer in ast_ex.rs), and
- an swc-based one in src/native/igniter_js/src/parsers/javascript/phoenix.rs
  (the visitor type HookExtender).

Parsing raw text and regenerating code from a tree are external collaborators
(oxc / swc); the spec declares them out of scope.  The definitions below embed
the mutation and query logic itself: programs are represented at the AST level
(a parsed file is a list of statements plus the parser's recorded error list),
and each Rust function is translated into a pure Lean function on that
representation.  Rust in-place mutation through iter_mut()/find_map is
rendered as a first-match rewrite that rebuilds the list.
-/

set_option linter.unusedVariables false

namespace IgniterJs

/-- Insert an element at position `n` of a list, mirroring Rust's
`Vec::insert`: elements from position `n` on are shifted right (for `n` beyond
the end the element is appended; the sources only call it with `n ≤ length`). -/
def insertAt {α : Type} (n : Nat) (a : α) : List α → List α
  | [] => [a]
  | x :: xs =>
    match n with
    | 0 => a :: x :: xs
    | m + 1 => x :: insertAt m a xs

/-- Rewrite the first element of a list on which `f` fires, mirroring the Rust
pattern `iter_mut().find_map(..)` followed by mutation through the returned
reference: the search walks the list in order, the first element for which `f`
returns a value is replaced by that value, and `none` is returned when no
element fires. -/
def rewriteFirstSome {α : Type} (f : α → Option α) : List α → Option (List α)
  | [] => none
  | a :: as =>
    match f a with
    | some a2 => some (a2 :: as)
    | none => (rewriteFirstSome f as).map (a :: ·)

/-- True when an `Except` value is an error. -/
def isErrB {ε α : Type} : Except ε α → Bool
  | .error _ => true
  | .ok _ => false

/-! ## The oxc AST model (parsers/javascript/ast.rs)

Only the node shapes inspected by the functions under verification are
distinguished; every other expression form is collapsed into `otherE` (the
code treats them all alike: they match none of its patterns).  A declarator's
binding pattern is represented by its identifier name (the code reads it with
`get_binding_identifier().unwrap()` / `get_identifier()`; destructuring
patterns never reach the verified paths). -/

mutual
inductive OxExpr : Type where
  | ident (name : String)
  | objectE (props : List OxProp)
  | newE (callee : String) (args : List OxArg)
  | arrowFn
  | otherE

inductive OxProp : Type where
  | objectProp (key : Option String) (value : OxExpr) (shorthand : Bool)
  | spreadProp (arg : OxExpr)

inductive OxArg : Type where
  | exprArg (e : OxExpr)
  | otherArg
end

/-- A variable declarator: binding identifier plus optional initializer. -/
structure OxDeclarator : Type where
  name : String
  init : Option OxExpr

/-- A statement of the program body.  Import declarations are identified by
their module specifier, the only part of an import the verified operations
ever compare (named/default/namespace bindings are never read). -/
inductive OxStmt : Type where
  | importDecl (specifier : String)
  | varDecl (decls : List OxDeclarator)
  | otherStmt

/-- The result of `source_to_ast`: oxc's parser is error-recovering, so it
always yields a program body together with the list of recorded parse errors.
The Rust `source_to_ast` wraps this in `Ok` unconditionally — it never
returns `Err`. -/
structure ParserReturn : Type where
  errors : List String
  body : List OxStmt

/-! ## Import manager (ast.rs, insert_import_to_ast) -/

/-- `matches!(node, Statement::ImportDeclaration(_))`. -/
def isImportB : OxStmt → Bool
  | .importDecl _ => true
  | _ => false

/-- The duplicate test of `insert_import_to_ast`: both statements are import
declarations and their module specifiers are equal. -/
def dupB (existing candidate : OxStmt) : Bool :=
  match existing, candidate with
  | .importDecl a, .importDecl b => a == b
  | _, _ => false

/-- The insertion position computed by `insert_import_to_ast`:
`rposition(is import).map(i+1).unwrap_or(0)`, i.e. one past the last import
declaration, or `0` when the body holds no import (when the tail holds its
last import at position `r - 1`, the last import of the whole list is one
deeper; otherwise the head decides). -/
def insertPos : List OxStmt → Nat
  | [] => 0
  | s :: rest =>
    match insertPos rest with
    | 0 => if isImportB s then 1 else 0
    | r + 1 => r + 2

/-- The per-line loop of `insert_import_to_ast`.  Each candidate line is given
by its own parse result.  A line whose parse recorded an error aborts the
whole call; so does a line whose parsed body holds no import declaration.
Otherwise the first import declaration of the line is inserted at
`insertPos` of the current body unless an import with the same specifier is
already present. -/
def insertLoop (body : List OxStmt) : List ParserReturn → Except String (List OxStmt)
  | [] => .ok body
  | line :: rest =>
    match line.errors with
    | e :: _ => .error ("Failed to parse import line: " ++ e)
    | [] =>
      match line.body.find? isImportB with
      | none => .error "No import declaration found in parsed import line"
      | some newImport =>
        if body.any (fun node => dupB node newImport) then insertLoop body rest
        else insertLoop (insertAt (insertPos body) newImport body) rest

/-- `insert_import_to_ast` on the parsed file.  Note that the parse errors
recorded for the file content itself are never consulted: the Rust code calls
`source_to_ast(file_content)?`, and `source_to_ast` always returns `Ok`. -/
def insert_import_to_ast (file : ParserReturn) (importLines : List ParserReturn) :
    Except String (List OxStmt) :=
  insertLoop file.body importLines

/-- Specifiers of the import declarations of a body, in order (spec side). -/
def importSpecs : List OxStmt → List String
  | [] => []
  | .importDecl s :: rest => s :: importSpecs rest
  | _ :: rest => importSpecs rest

/-- The specifier of the first import declaration of a candidate line. -/
def lineSpec (line : ParserReturn) : Option String :=
  match line.body.find? isImportB with
  | some (.importDecl s) => some s
  | _ => none

/-- A candidate line that parses without error and contains an import. -/
def goodLineB (line : ParserReturn) : Bool :=
  line.errors.isEmpty && (line.body.find? isImportB).isSome

/-- A candidate line that fails to parse or contains no import declaration. -/
def badLineB (line : ParserReturn) : Bool :=
  !line.errors.isEmpty || (line.body.find? isImportB).isNone

/-- Membership of a specifier in a list of specifiers, in the comparison
orientation of the duplicate test (existing specifier on the left). -/
def containsStr (l : List String) (s : String) : Bool :=
  l.any fun t => t == s

/-- Specification-side description of which candidate imports survive the
sequential duplicate filter: a line's import is kept when its specifier is
neither among `present` nor among the specifiers of the lines already kept. -/
def specKept (present : List String) : List ParserReturn → List OxStmt
  | [] => []
  | line :: rest =>
    match lineSpec line with
    | none => []
    | some s =>
      if containsStr present s then specKept present rest
      else .importDecl s :: specKept (present ++ [s]) rest

/-! ## Object-property merge shared by the oxc extend operations -/

/-- `Expression::get_identifier_reference`: the name when the expression is a
plain identifier reference. -/
def exprIdentRef : OxExpr → Option String
  | .ident n => some n
  | _ => none

/-- The duplicate test of the oxc merge loops (extend_hook_object_to_ast and
extend_var_object_property_by_names_to_ast): a spread entry hits when its
argument is the identifier `name`; a normal property hits when its value is
the identifier `name`.  No spread marker is involved on either side. -/
def oxDupHit (name : String) : OxProp → Bool
  | .spreadProp arg => exprIdentRef arg == some name
  | .objectProp _ value _ => exprIdentRef value == some name

/-- `create_and_import_object_into_hook`: a shorthand property
`name` (static identifier key and identifier value, both `name`). -/
def create_and_import_object_into_hook (name : String) : OxProp :=
  .objectProp (some name) (.ident name) true

/-- The oxc merge loop: each requested name is appended as a shorthand
property unless `oxDupHit` fires on the current property list. -/
def mergeOx (props : List OxProp) : List String → List OxProp
  | [] => props
  | n :: ns =>
    if props.any (oxDupHit n) then mergeOx props ns
    else mergeOx (props ++ [create_and_import_object_into_hook n]) ns

/-! ## Named-object extender (ast.rs, extend_var_object_property_by_names_to_ast) -/

/-- The closure applied (through `.map(..).next()`) to the first declarator of
a variable declaration statement: on a name match the initializer is merged
when it is an object literal — and left untouched, still returning `Ok`, when
it is anything else; on a name mismatch the closure returns `Err`. -/
def extendVarStep (varName : String) (names : List String) (d : OxDeclarator) :
    Except String OxDeclarator :=
  if d.name == varName then
    match d.init with
    | some (.objectE props) => .ok { d with init := some (.objectE (mergeOx props names)) }
    | _ => .ok d
  else .error "Variable not found in javascript body"

/-- The `find_map` of extend_var_object_property_by_names_to_ast.  For a
variable declaration statement, `declarations.iter_mut().map(..).next()`
evaluates the closure on the first declarator only, so the scan stops at the
first variable declaration with a nonempty declarator list; variable
declarations with no declarators and all other statements yield `None` and
the scan proceeds. -/
def extendVarLoop (varName : String) (names : List String) :
    List OxStmt → Option (Except String (List OxStmt))
  | [] => none
  | .varDecl (d :: ds) :: rest =>
    some (match extendVarStep varName names d with
      | .ok d2 => .ok (.varDecl (d2 :: ds) :: rest)
      | .error e => .error e)
  | s :: rest => (extendVarLoop varName names rest).map (fun r => r.map (s :: ·))

/-- extend_var_object_property_by_names_to_ast on a parsed body. -/
def extend_var_object_property_by_names_to_ast (body : List OxStmt) (varName : String)
    (objectNames : List String) : Except String (List OxStmt) :=
  match extendVarLoop varName objectNames body with
  | some r => r
  | none => .error "Variable not found in javascript body or javascript file is invalid"

/-- A statement that is a variable declaration with at least one declarator
(the only statements on which the scan of `extendVarLoop` stops). -/
def isVarDeclNonEmptyB : OxStmt → Bool
  | .varDecl (_ :: _) => true
  | _ => false

/-- An initializer that is an object literal. -/
def isObjectInitB : Option OxExpr → Bool
  | some (.objectE _) => true
  | _ => false

/-! ## Hook-object extender / remover (ast.rs) -/

/-- find_live_socket_node_from_ast: some variable declaration anywhere in the
body binds the identifier `liveSocket` (the initializer is not inspected). -/
def find_live_socket_node_from_ast (body : List OxStmt) : Bool :=
  body.any fun node =>
    match node with
    | .varDecl decls => decls.any (fun d => d.name == "liveSocket")
    | _ => false

/-- `create_init_hooks`: the property `hooks: { }` (static identifier key,
empty object literal value, not shorthand). -/
def create_init_hooks : OxProp :=
  .objectProp (some "hooks") (.objectE []) false

/-- Whether a property has the static identifier key `hooks` (the test of
`get_property_by_key(prop, "hooks")`). -/
def isHooksKeyB : OxProp → Bool
  | .objectProp (some k) _ _ => k == "hooks"
  | _ => false

/-- The rewrite performed on the first `hooks`-keyed property found by
`find_hooks_property` during extension: when its value is an object literal
the merge loop runs on it; any other value is left untouched (the
`if let ObjectExpression` silently does nothing). -/
def extendHookRw (names : List String) : OxProp → Option OxProp
  | .objectProp (some k) value sh =>
    if k == "hooks" then
      match value with
      | .objectE props => some (.objectProp (some k) (.objectE (mergeOx props names)) sh)
      | v => some (.objectProp (some k) v sh)
    else none
  | _ => none

/-- Extension step on the options object's property list: rewrite the first
`hooks` property, or — exactly as the `None` arm of `find_hooks_property` —
push `create_init_hooks` and run the merge loop on its (empty) object. -/
def extendHooksInOptions (names : List String) (props : List OxProp) : List OxProp :=
  match rewriteFirstSome (extendHookRw names) props with
  | some props2 => props2
  | none => props ++ [.objectProp (some "hooks") (.objectE (mergeOx [] names)) false]

/-- The retain predicate of remove_objects_of_hooks_from_ast: an object
property whose static identifier key is in `objectNames` is dropped; every
other property — including every spread entry — is kept. -/
def removeKeepB (objectNames : List String) : OxProp → Bool
  | .objectProp (some k2) _ _ => !(objectNames.contains k2)
  | _ => true

/-- The rewrite performed on the first `hooks`-keyed property during removal:
when its value is an object literal its properties are filtered with
`removeKeepB`; any other value is left untouched. -/
def removeHookRw (objectNames : List String) : OxProp → Option OxProp
  | .objectProp (some k) value sh =>
    if k == "hooks" then
      match value with
      | .objectE props => some (.objectProp (some k) (.objectE (props.filter (removeKeepB objectNames))) sh)
      | v => some (.objectProp (some k) v sh)
    else none
  | _ => none

/-- Removal step on the options object's property list: filter the first
`hooks` property, or push a fresh empty `hooks: { }` (whose empty property
list the retain then runs over, changing nothing). -/
def removeHooksInOptions (objectNames : List String) (props : List OxProp) : List OxProp :=
  match rewriteFirstSome (removeHookRw objectNames) props with
  | some props2 => props2
  | none => props ++ [create_init_hooks]

/-- `get_object_expression` applied through the argument iterator: rewrite the
first argument that is an object literal. -/
def argRw (f : List OxProp → List OxProp) : OxArg → Option OxArg
  | .exprArg (.objectE props) => some (.exprArg (.objectE (f props)))
  | _ => none

/-- `get_new_expression` plus the inner `find_map`: a declarator fires when
its initializer is a new-expression one of whose arguments is an object
literal; the first such argument is rewritten. -/
def declRw (f : List OxProp → List OxProp) (d : OxDeclarator) : Option OxDeclarator :=
  match d.init with
  | some (.newE callee args) =>
    (rewriteFirstSome (argRw f) args).map (fun args2 => { d with init := some (.newE callee args2) })
  | _ => none

/-- A statement fires when it is a variable declaration with a firing
declarator (first one wins). -/
def stmtRw (f : List OxProp → List OxProp) : OxStmt → Option OxStmt
  | .varDecl decls => (rewriteFirstSome (declRw f) decls).map .varDecl
  | _ => none

/-- `get_properties`, fused with the mutation applied through the returned
mutable reference: locate — first statement, first firing declarator, first
object-literal argument — and rewrite the options object's property list
with `f`. -/
def get_properties_rw (f : List OxProp → List OxProp) (body : List OxStmt) :
    Option (List OxStmt) :=
  rewriteFirstSome (stmtRw f) body

/-- extend_hook_object_to_ast (oxc): require a `liveSocket` binding, locate
the options object, find-or-create `hooks` and run the merge loop. -/
def extend_hook_object_to_ast (body : List OxStmt) (names : List String) :
    Except String (List OxStmt) :=
  if !find_live_socket_node_from_ast body then .error "liveSocket not found."
  else
    match get_properties_rw (extendHooksInOptions names) body with
    | some body2 => .ok body2
    | none => .error "properties not found in the AST."

/-- remove_objects_of_hooks_from_ast (oxc): require a `liveSocket` binding,
locate the options object, find-or-create `hooks` and retain the properties
not named. -/
def remove_objects_of_hooks_from_ast (body : List OxStmt) (objectNames : List String) :
    Except String (List OxStmt) :=
  if !find_live_socket_node_from_ast body then .error "liveSocket not found."
  else
    match get_properties_rw (removeHooksInOptions objectNames) body with
    | some body2 => .ok body2
    | none => .error "properties not found in the AST."

/-! ## The swc hook extender (parsers/javascript/phoenix.rs, HookExtender)

Identifier symbols are modelled as character lists so that the
`format!("...{}", ident.sym)` comparison is literal list concatenation. -/

namespace Phoenix

/-- An identifier symbol / requested entry name. -/
abbrev SymName := List Char

mutual
inductive SwcVal : Type where
  | objectV (props : List SwcProp)
  | otherV

/-- A `PropOrSpread` of an swc object literal.  `keyValue` covers
`Prop::KeyValue` with an identifier key; `spreadIdent` a spread element whose
expression is a plain identifier; every other shape is collapsed into the
constructor the code's `match` arms treat it as. -/
inductive SwcProp : Type where
  | shorthand (name : SymName)
  | keyValue (key : SymName) (value : SwcVal)
  | spreadIdent (name : SymName)
  | spreadOther
  | otherProp
end

/-- The spread marker prepended by `format!("...{}", ident.sym)`. -/
def spreadMarker : SymName := "...".toList

/-- The key `hooks`. -/
def hooksKey : SymName := "hooks".toList

/-- The `already_exists` test of HookExtender::extend_or_create_hooks: a
shorthand entry hits when its symbol equals the requested name; a spread
entry hits when its spread-marker-prefixed symbol equals the requested name;
nothing else hits. -/
def alreadyExistsB (props : List SwcProp) (newObject : SymName) : Bool :=
  props.any fun p =>
    match p with
    | .shorthand ident => ident == newObject
    | .spreadIdent ident => (spreadMarker ++ ident) == newObject
    | _ => false

/-- The merge loop of extend_or_create_hooks: each requested name is pushed as
a shorthand entry unless `alreadyExistsB` fires on the current list. -/
def mergeSwc (props : List SwcProp) : List SymName → List SwcProp
  | [] => props
  | n :: ns =>
    if alreadyExistsB props n then mergeSwc props ns
    else mergeSwc (props ++ [.shorthand n]) ns

/-- The hooks search of extend_or_create_hooks: the first key-value property
whose identifier key is `hooks` and whose value is an object literal; its
object is merged.  A `hooks` property with a non-object value does not match
and the search continues. -/
def hooksRw (newObjects : List SymName) : SwcProp → Option SwcProp
  | .keyValue key (.objectV props) =>
    if key == hooksKey then some (.keyValue key (.objectV (mergeSwc props newObjects)))
    else none
  | _ => none

/-- HookExtender::extend_or_create_hooks on the options object's property
list: merge into the existing hooks object, or append a fresh
`hooks: { .. }` holding one shorthand entry per requested name. -/
def extend_or_create_hooks (objExpr : List SwcProp) (newObjects : List SymName) :
    List SwcProp :=
  match IgniterJs.rewriteFirstSome (hooksRw newObjects) objExpr with
  | some props2 => props2
  | none => objExpr ++ [.keyValue hooksKey (.objectV (newObjects.map .shorthand))]

/-- The retain predicate of HookExtender::remove_objects_from_hooks: a
shorthand entry is kept unless its symbol is in the removal set; a spread
entry over an identifier is kept unless its spread-marker-prefixed symbol is
in the removal set; everything else is kept. -/
def keepSwcB (objectsToRemove : List SymName) : SwcProp → Bool
  | .shorthand ident => !(objectsToRemove.contains ident)
  | .spreadIdent ident => !(objectsToRemove.contains (spreadMarker ++ ident))
  | _ => true

/-- The hooks search of remove_objects_from_hooks (same shape as `hooksRw`),
filtering the hooks object with `keepSwcB`. -/
def removeRw (objectsToRemove : List SymName) : SwcProp → Option SwcProp
  | .keyValue key (.objectV props) =>
    if key == hooksKey then
      some (.keyValue key (.objectV (props.filter (keepSwcB objectsToRemove))))
    else none
  | _ => none

/-- HookExtender::remove_objects_from_hooks on the options object's property
list (when no hooks object is found the method does nothing). -/
def remove_objects_from_hooks (objExpr : List SwcProp) (objectsToRemove : List SymName) :
    List SwcProp :=
  match IgniterJs.rewriteFirstSome (removeRw objectsToRemove) objExpr with
  | some props2 => props2
  | none => objExpr

/-- Claim-side predicate (from the removal sentence of the spec): an entry is
hit by the removal set when it is a shorthand whose name is in the set, or a
spread entry whose spread-marker-prefixed key is in the set. -/
def hitB (removalSet : List SymName) : SwcProp → Bool
  | .shorthand name => removalSet.contains name
  | .spreadIdent name => removalSet.contains (spreadMarker ++ name)
  | _ => false

/-- An entry that is the shorthand named `x`. -/
def isShorthandNamedB (x : SymName) : SwcProp → Bool
  | .shorthand n => n == x
  | _ => false

/-- An entry that is a spread over the identifier `x`. -/
def isSpreadNamedB (x : SymName) : SwcProp → Bool
  | .spreadIdent n => n == x
  | _ => false

/-- An entry that is a spread whose spread-marker-prefixed key equals `x`. -/
def isSpreadKeyB (x : SymName) : SwcProp → Bool
  | .spreadIdent n => (spreadMarker ++ n) == x
  | _ => false

end Phoenix

/-! ## Statistics collector (parsers/javascript/ast_statistics.rs)

The collector is a read-only visitor over the whole tree; only the kind of
each node and the parent-child nesting matter to it, so the tree is modelled
as node kinds with child lists. -/

namespace Stats

structure ASTStatistics : Type where
  functions : Nat
  classes : Nat
  debuggers : Nat
  imports : Nat
  trys : Nat
  throws : Nat
deriving DecidableEq

mutual
/-- A node of the parsed tree: the six counted kinds plus everything else.
Children cover all nested nodes the oxc walker would reach (a function inside
a class body appears among the class node's descendants).  Child sequences
are given by the mutually defined `JsForest` so that all recursions below are
plainly structural. -/
inductive JsNode : Type where
  | importDeclN (children : JsForest)
  | classN (children : JsForest)
  | functionN (children : JsForest)
  | debuggerN
  | tryN (children : JsForest)
  | throwN (children : JsForest)
  | otherN (children : JsForest)

/-- An ordered sequence of sibling nodes. -/
inductive JsForest : Type where
  | nilF
  | consF (n : JsNode) (f : JsForest)
end

def emptyStats : ASTStatistics := ⟨0, 0, 0, 0, 0, 0⟩

mutual
/-- The `Visit` implementation: each overridden `visit_*` method increments
its counter and then walks the children; unmatched nodes are only walked. -/
def visitNode (s : ASTStatistics) : JsNode → ASTStatistics
  | .importDeclN cs => visitList { s with imports := s.imports + 1 } cs
  | .classN cs => visitList { s with classes := s.classes + 1 } cs
  | .functionN cs => visitList { s with functions := s.functions + 1 } cs
  | .debuggerN => { s with debuggers := s.debuggers + 1 }
  | .tryN cs => visitList { s with trys := s.trys + 1 } cs
  | .throwN cs => visitList { s with throws := s.throws + 1 } cs
  | .otherN cs => visitList s cs

def visitList (s : ASTStatistics) : JsForest → ASTStatistics
  | .nilF => s
  | .consF n ns => visitList (visitNode s n) ns
end

/-- Pointwise sum of two counter records (spec side). -/
def addStats (a b : ASTStatistics) : ASTStatistics :=
  ⟨a.functions + b.functions, a.classes + b.classes, a.debuggers + b.debuggers,
   a.imports + b.imports, a.trys + b.trys, a.throws + b.throws⟩

mutual
/-- Specification-side count: the number of occurrences of each counted node
kind in a tree, nested occurrences included. -/
def countNode : JsNode → ASTStatistics
  | .importDeclN cs => addStats ⟨0, 0, 0, 1, 0, 0⟩ (countList cs)
  | .classN cs => addStats ⟨0, 1, 0, 0, 0, 0⟩ (countList cs)
  | .functionN cs => addStats ⟨1, 0, 0, 0, 0, 0⟩ (countList cs)
  | .debuggerN => ⟨0, 0, 1, 0, 0, 0⟩
  | .tryN cs => addStats ⟨0, 0, 0, 0, 1, 0⟩ (countList cs)
  | .throwN cs => addStats ⟨0, 0, 0, 0, 0, 1⟩ (countList cs)
  | .otherN cs => countList cs

def countList : JsForest → ASTStatistics
  | .nilF => emptyStats
  | .consF n ns => addStats (countNode n) (countList ns)
end

/-- A parse result handed to the collector. -/
structure StatsParse : Type where
  errors : List String
  body : JsForest

/-- source_visitor: unlike insert_import_to_ast, this function does check the
recorded parse errors before visiting. -/
def source_visitor (parsed : StatsParse) : Except String ASTStatistics :=
  match parsed.errors with
  | e :: _ => .error ("Failed to parse source: " ++ e)
  | [] => .ok (visitList emptyStats parsed.body)

end Stats

/-! ## Comment-preserving CSS emission (parsers/css/ast.rs,
generate_css_with_comments)

The regenerated text of one rule is a list of lines; the collected
`(anchor, comment)` pairs are attached in reverse collection order.  A line
is modelled as its regenerated base text together with the ordered list of
comment texts appended to it so far — the emitted line is their
concatenation `flat`, and the code's `String::contains` tests run on exactly
that concatenation. -/

namespace Css

/-- `haystack.contains(needle)` on character lists. -/
def containsB (hay needle : List Char) : Bool := decide (needle <:+: hay)

/-- `str::trim`: drop leading and trailing whitespace. -/
def trimChars (s : List Char) : List Char :=
  ((s.dropWhile Char.isWhitespace).reverse.dropWhile Char.isWhitespace).reverse

/-- A regenerated line: its base text plus the comments appended to it. -/
structure AnnLine : Type where
  base : List Char
  comments : List (List Char)
deriving DecidableEq

/-- The current full text of the line (`push_str` appends at the end). -/
def AnnLine.flat (l : AnnLine) : List Char := l.base ++ l.comments.flatten

/-- Invariant carried through the attachment loop: the comments appended to a
line are pairwise distinct, and the trimmed text of each one occurs in the
line's current text. -/
def lineOk (l : AnnLine) : Prop :=
  l.comments.Nodup ∧ ∀ c ∈ l.comments, trimChars c <:+: l.flat

/-- The anchor text searched for in the regenerated lines: a pseudo-selector
anchor (leading colon) is searched verbatim, a property-name anchor as
`name:`. -/
def needleFor (anchor : List Char) : List Char :=
  match anchor with
  | ':' :: _ => anchor
  | _ => anchor ++ [':']

/-- One pass of the attachment loop: `position` finds the first line whose
current text contains the anchor needle; the comment is appended there unless
the line's current text already contains the trimmed comment.  (The Rust
`position` + indexed `push_str` pair is rendered as a first-match rewrite.) -/
def attachOne (pair : List Char × List Char) : List AnnLine → List AnnLine
  | [] => []
  | l :: ls =>
    if containsB l.flat (needleFor pair.1) then
      if containsB l.flat (trimChars pair.2) then l :: ls
      else { l with comments := l.comments ++ [pair.2] } :: ls
    else l :: attachOne pair ls

/-- The per-rule attachment phase of generate_css_with_comments: start from
the plain regenerated lines and process the collected pairs in reverse
order. -/
def generate_css_with_comments (ruleLines : List (List Char))
    (collectedComments : List (List Char × List Char)) : List AnnLine :=
  collectedComments.reverse.foldl (fun ls pair => attachOne pair ls)
    (ruleLines.map fun b => ⟨b, []⟩)

end Css

/-! # Theorems -/

/-! ## Named-object extender: search and shape handling (claims C1, C6) -/

/-- Statements on which the scan of `extendVarLoop` does not stop are passed
over, the eventual result being re-wrapped around them. -/
theorem extendVarLoop_append_skip (varName : String) (names : List String)
    (A rest : List OxStmt) (hA : A.all (fun s => !isVarDeclNonEmptyB s) = true) :
    extendVarLoop varName names (A ++ rest)
      = (extendVarLoop varName names rest).map (fun r => r.map (A ++ ·)) := by
  induction A with
  | nil =>
    simp only [List.nil_append]
    cases h : extendVarLoop varName names rest with
    | none => simp
    | some r => cases r <;> simp [Except.map]
  | cons a A ih =>
    simp only [List.all_cons, Bool.and_eq_true] at hA
    obtain ⟨ha, hA2⟩ := hA
    have step : extendVarLoop varName names ((a :: A) ++ rest)
        = (extendVarLoop varName names (A ++ rest)).map (fun r => r.map (a :: ·)) := by
      cases a with
      | importDecl s => rfl
      | otherStmt => rfl
      | varDecl ds =>
        cases ds with
        | nil => rfl
        | cons d ds => simp [isVarDeclNonEmptyB] at ha
    rw [step, ih hA2]
    cases h : extendVarLoop varName names rest with
    | none => simp
    | some r => cases r <;> simp [Except.map]

/-- On a matching first declarator whose initializer is not an object
literal, the closure of extend_var_object_property_by_names_to_ast returns
`Ok` without touching the declarator. -/
theorem extendVarStep_non_object (varName : String) (names : List String)
    (d : OxDeclarator) (hname : (d.name == varName) = true)
    (hinit : isObjectInitB d.init = false) :
    extendVarStep varName names d = .ok d := by
  unfold extendVarStep
  rw [if_pos hname]
  cases hd : d.init with
  | none => rfl
  | some e =>
    cases e with
    | objectE props => rw [hd] at hinit; simp [isObjectInitB] at hinit
    | ident n => rfl
    | newE c args => rfl
    | arrowFn => rfl
    | otherE => rfl

/-- C1 counterexample: the claim asserts that extending a variable whose
initializer is an arrow function yields an error; on this input the code
instead returns success carrying the unchanged body, with no entries added. -/
theorem extend_var_arrow_initializer_counterexample :
    extend_var_object_property_by_names_to_ast
        [.varDecl [⟨"Components", some .arrowFn⟩]] "Components" ["NewHook"]
      = .ok [.varDecl [⟨"Components", some .arrowFn⟩]] := rfl

/-- C1 (amended): when the first examined declarator (the first declarator of
the first nonempty variable declaration) matches the requested variable name
but its initializer is not an object literal,
extend_var_object_property_by_names_to_ast returns success with the body
unchanged — the merge is silently skipped and no FoundError-style error is
reported. -/
theorem extend_var_non_object_initializer_succeeds (A : List OxStmt) (d : OxDeclarator)
    (ds : List OxDeclarator) (B : List OxStmt) (varName : String) (names : List String)
    (hA : A.all (fun s => !isVarDeclNonEmptyB s) = true)
    (hname : (d.name == varName) = true)
    (hinit : isObjectInitB d.init = false) :
    extend_var_object_property_by_names_to_ast (A ++ .varDecl (d :: ds) :: B) varName names
      = .ok (A ++ .varDecl (d :: ds) :: B) := by
  unfold extend_var_object_property_by_names_to_ast
  rw [extendVarLoop_append_skip varName names A _ hA]
  have hloop : extendVarLoop varName names (.varDecl (d :: ds) :: B)
      = some (.ok (.varDecl (d :: ds) :: B)) := by
    show some _ = _
    rw [extendVarStep_non_object varName names d hname hinit]
  rw [hloop]
  simp [Except.map]

/-- C1 witness: a concrete instance of the amended statement. -/
theorem extend_var_non_object_initializer_succeeds_witness :
    extend_var_object_property_by_names_to_ast
        [.otherStmt, .varDecl [⟨"conf", some .otherE⟩]] "conf" ["A"]
      = .ok [.otherStmt, .varDecl [⟨"conf", some .otherE⟩]] :=
  extend_var_non_object_initializer_succeeds [.otherStmt] ⟨"conf", some .otherE⟩ [] []
    "conf" ["A"] rfl rfl rfl

/-- C6 counterexample: the program declares `Components` (with an object
initializer) after an unrelated variable declaration; the claim asserts the
search finds it, but the code reports the variable as not found. -/
theorem extend_var_later_declaration_missed_counterexample :
    extend_var_object_property_by_names_to_ast
        [.varDecl [⟨"other", some .otherE⟩], .varDecl [⟨"Components", some (.objectE [])⟩]]
        "Components" ["A"]
      = .error "Variable not found in javascript body" := rfl

/-- C6 (amended): the search of extend_var_object_property_by_names_to_ast
examines only the first declarator of the first variable declaration
statement that has a declarator; when that declarator's identifier differs
from the requested name the operation errs with "Variable not found in
javascript body" regardless of any matching declaration later in the
program. -/
theorem extend_var_stops_at_first_declaration (A : List OxStmt) (d : OxDeclarator)
    (ds : List OxDeclarator) (B : List OxStmt) (varName : String) (names : List String)
    (hA : A.all (fun s => !isVarDeclNonEmptyB s) = true)
    (hname : (d.name == varName) = false) :
    extend_var_object_property_by_names_to_ast (A ++ .varDecl (d :: ds) :: B) varName names
      = .error "Variable not found in javascript body" := by
  unfold extend_var_object_property_by_names_to_ast
  rw [extendVarLoop_append_skip varName names A _ hA]
  have hloop : extendVarLoop varName names (.varDecl (d :: ds) :: B)
      = some (.error "Variable not found in javascript body") := by
    show some _ = _
    unfold extendVarStep
    rw [if_neg (by simp [hname])]
  rw [hloop]
  simp [Except.map]

/-- C6 witness: the second statement declares the requested variable with an
object initializer, yet the operation still reports it as not found because
the first declaration stops the scan. -/
theorem extend_var_stops_at_first_declaration_witness :
    extend_var_object_property_by_names_to_ast
        [.varDecl [⟨"other", none⟩], .varDecl [⟨"Components", some (.objectE [])⟩]]
        "Components" ["A"]
      = .error "Variable not found in javascript body" :=
  extend_var_stops_at_first_declaration [] ⟨"other", none⟩ []
    [.varDecl [⟨"Components", some (.objectE [])⟩]] "Components" ["A"] rfl rfl

/-! ## Hook-object merge: shorthand versus spread keys (claims C2, C5, C10) -/

/-- In the swc merge, no existing entry collides with a requested name that
is neither an existing shorthand's symbol nor an existing spread's
marker-prefixed key. -/
theorem alreadyExistsB_eq_false (props : List Phoenix.SwcProp) (x : Phoenix.SymName)
    (h1 : props.all (fun p => !(Phoenix.isShorthandNamedB x p)) = true)
    (h2 : props.all (fun p => !(Phoenix.isSpreadKeyB x p)) = true) :
    Phoenix.alreadyExistsB props x = false := by
  unfold Phoenix.alreadyExistsB
  rw [List.any_eq_false]
  intro p hp
  have g1 := (List.all_eq_true.mp h1) p hp
  have g2 := (List.all_eq_true.mp h2) p hp
  cases p <;> simp [Phoenix.isShorthandNamedB, Phoenix.isSpreadKeyB] at g1 g2 ⊢ <;>
    first | exact g1 | exact g2

/-- A requested name of the form marker-plus-`x` collides with no shorthand
entry not so named and with no spread entry other than a spread over `x`
itself (the spread marker is injective on the left of the concatenation). -/
theorem alreadyExistsB_eq_false_spread (props : List Phoenix.SwcProp) (x : Phoenix.SymName)
    (h1 : props.all (fun p => !(Phoenix.isShorthandNamedB (Phoenix.spreadMarker ++ x) p)) = true)
    (h2 : props.all (fun p => !(Phoenix.isSpreadNamedB x p)) = true) :
    Phoenix.alreadyExistsB props (Phoenix.spreadMarker ++ x) = false := by
  unfold Phoenix.alreadyExistsB
  rw [List.any_eq_false]
  intro p hp
  have g1 := (List.all_eq_true.mp h1) p hp
  have g2 := (List.all_eq_true.mp h2) p hp
  cases p <;>
    simp [Phoenix.isShorthandNamedB, Phoenix.isSpreadNamedB] at g1 g2 ⊢ <;>
    first | exact g1 | exact g2

/-- Merging a single non-colliding name appends one shorthand entry. -/
theorem mergeSwc_single (props : List Phoenix.SwcProp) (x : Phoenix.SymName)
    (h : Phoenix.alreadyExistsB props x = false) :
    Phoenix.mergeSwc props [x] = props ++ [.shorthand x] := by
  unfold Phoenix.mergeSwc
  rw [h]
  simp [Phoenix.mergeSwc]

/-- extend_or_create_hooks on an options object holding exactly the hooks
property runs the merge loop on the hooks object. -/
theorem extend_or_create_hooks_single (props : List Phoenix.SwcProp)
    (ns : List Phoenix.SymName) :
    Phoenix.extend_or_create_hooks [.keyValue Phoenix.hooksKey (.objectV props)] ns
      = [.keyValue Phoenix.hooksKey (.objectV (Phoenix.mergeSwc props ns))] := by
  simp [Phoenix.extend_or_create_hooks, rewriteFirstSome, Phoenix.hooksRw]

/-- C2 counterexample: in the oxc extend_hook_object_to_ast, an existing
spread over `Hooks` blocks the addition of the plain shorthand `Hooks` — the
claim asserts a new shorthand entry is added, but the call returns the input
unchanged. -/
theorem oxc_spread_blocks_shorthand_counterexample :
    extend_hook_object_to_ast
        [.varDecl [⟨"liveSocket", some (.newE "LiveSocket"
          [.exprArg (.objectE [.objectProp (some "hooks")
            (.objectE [.spreadProp (.ident "Hooks")]) false])])⟩]]
        ["Hooks"]
      = .ok [.varDecl [⟨"liveSocket", some (.newE "LiveSocket"
          [.exprArg (.objectE [.objectProp (some "hooks")
            (.objectE [.spreadProp (.ident "Hooks")]) false])])⟩]] := rfl

/-- C2 (amended): in the swc HookExtender merge the claim holds — a spread
entry and a shorthand entry have distinct keys: extending with a plain name
`x` appends the shorthand `x` even when the spread over `x` is present (no
shorthand `x` and no spread whose marker-prefixed key is `x` existing), and
symmetrically extending with the marker-prefixed name appends that entry even
when the shorthand `x` is present.  In the oxc extend operations the claim
fails: the duplicate check compares bare identifier names on both kinds, so
the existing spread blocks the shorthand (see the counterexample). -/
theorem swc_shorthand_and_spread_keys_never_collide :
    (∀ (props : List Phoenix.SwcProp) (x : Phoenix.SymName),
      props.any (Phoenix.isSpreadNamedB x) = true →
      props.all (fun p => !(Phoenix.isShorthandNamedB x p)) = true →
      props.all (fun p => !(Phoenix.isSpreadKeyB x p)) = true →
      Phoenix.extend_or_create_hooks
          [.keyValue Phoenix.hooksKey (.objectV props)] [x]
        = [.keyValue Phoenix.hooksKey (.objectV (props ++ [.shorthand x]))]) ∧
    (∀ (props : List Phoenix.SwcProp) (x : Phoenix.SymName),
      props.any (Phoenix.isShorthandNamedB x) = true →
      props.all (fun p => !(Phoenix.isShorthandNamedB (Phoenix.spreadMarker ++ x) p)) = true →
      props.all (fun p => !(Phoenix.isSpreadNamedB x p)) = true →
      Phoenix.extend_or_create_hooks
          [.keyValue Phoenix.hooksKey (.objectV props)] [Phoenix.spreadMarker ++ x]
        = [.keyValue Phoenix.hooksKey
            (.objectV (props ++ [.shorthand (Phoenix.spreadMarker ++ x)]))]) := by
  constructor
  · intro props x _ h1 h2
    rw [extend_or_create_hooks_single, mergeSwc_single props x (alreadyExistsB_eq_false props x h1 h2)]
  · intro props x _ h1 h2
    rw [extend_or_create_hooks_single,
      mergeSwc_single props _ (alreadyExistsB_eq_false_spread props x h1 h2)]

/-- C2 witness: concrete instances of both directions. -/
theorem swc_shorthand_and_spread_keys_never_collide_witness :
    Phoenix.extend_or_create_hooks
        [.keyValue Phoenix.hooksKey (.objectV [.spreadIdent "Hooks".toList])]
        ["Hooks".toList]
      = [.keyValue Phoenix.hooksKey
          (.objectV ([.spreadIdent "Hooks".toList] ++ [.shorthand "Hooks".toList]))] ∧
    Phoenix.extend_or_create_hooks
        [.keyValue Phoenix.hooksKey (.objectV [.shorthand "Hooks".toList])]
        [Phoenix.spreadMarker ++ "Hooks".toList]
      = [.keyValue Phoenix.hooksKey
          (.objectV ([.shorthand "Hooks".toList]
            ++ [.shorthand (Phoenix.spreadMarker ++ "Hooks".toList)]))] :=
  ⟨swc_shorthand_and_spread_keys_never_collide.1 [.spreadIdent "Hooks".toList] "Hooks".toList
      (by decide) (by decide) (by decide),
   swc_shorthand_and_spread_keys_never_collide.2 [.shorthand "Hooks".toList] "Hooks".toList
      (by decide) (by decide) (by decide)⟩

/-- The retain predicate of the swc removal is the negation of the
claim-side hit predicate. -/
theorem keepSwcB_eq_not_hitB (rm : List Phoenix.SymName) (p : Phoenix.SwcProp) :
    Phoenix.keepSwcB rm p = !(Phoenix.hitB rm p) := by
  cases p <;> rfl

/-- C5 counterexample: the oxc remove_objects_of_hooks_from_ast never removes
spread entries — with removal set containing the marker-prefixed key of the
spread over `Hooks`, the hooks object is returned unchanged, where the claim
requires the spread entry to be deleted. -/
theorem oxc_remove_keeps_spread_counterexample :
    remove_objects_of_hooks_from_ast
        [.varDecl [⟨"liveSocket", some (.newE "LiveSocket"
          [.exprArg (.objectE [.objectProp (some "hooks")
            (.objectE [.spreadProp (.ident "Hooks"),
              .objectProp (some "A") (.ident "A") true]) false])])⟩]]
        ["...Hooks"]
      = .ok [.varDecl [⟨"liveSocket", some (.newE "LiveSocket"
          [.exprArg (.objectE [.objectProp (some "hooks")
            (.objectE [.spreadProp (.ident "Hooks"),
              .objectProp (some "A") (.ident "A") true]) false])])⟩]] := rfl

/-- C5 (amended): in the swc HookExtender removal the claim holds — every
shorthand entry whose name is in the removal set and every spread entry whose
marker-prefixed key is in the removal set is deleted, and the surviving
entries are exactly the non-hit ones in their original relative order (a
sublist of the input).  In the oxc remove_objects_of_hooks_from_ast the claim
fails: spread entries are never removed (see the counterexample). -/
theorem swc_remove_hooks_filters (ps : List Phoenix.SwcProp) (rm : List Phoenix.SymName) :
    ∃ qs, Phoenix.remove_objects_from_hooks
        [.keyValue Phoenix.hooksKey (.objectV ps)] rm
        = [.keyValue Phoenix.hooksKey (.objectV qs)]
      ∧ List.Sublist qs ps
      ∧ (∀ p ∈ qs, Phoenix.hitB rm p = false)
      ∧ (∀ p ∈ ps, Phoenix.hitB rm p = false → p ∈ qs) := by
  refine ⟨ps.filter (Phoenix.keepSwcB rm), ?_, List.filter_sublist ps, ?_, ?_⟩
  · simp [Phoenix.remove_objects_from_hooks, rewriteFirstSome, Phoenix.removeRw]
  · intro p hp
    have h2 := (List.mem_filter.mp hp).2
    rw [keepSwcB_eq_not_hitB] at h2
    simpa using h2
  · intro p hp hh
    exact List.mem_filter.mpr ⟨hp, by rw [keepSwcB_eq_not_hitB, hh]; rfl⟩

/-- C5 witness: a concrete mixed hooks object. -/
theorem swc_remove_hooks_filters_witness :
    ∃ qs, Phoenix.remove_objects_from_hooks
        [.keyValue Phoenix.hooksKey (.objectV
          [.spreadIdent "Hooks".toList, .shorthand "A".toList, .shorthand "B".toList])]
        ["...Hooks".toList, "A".toList]
        = [.keyValue Phoenix.hooksKey (.objectV qs)]
      ∧ List.Sublist qs
          [.spreadIdent "Hooks".toList, .shorthand "A".toList, .shorthand "B".toList]
      ∧ (∀ p ∈ qs, Phoenix.hitB ["...Hooks".toList, "A".toList] p = false)
      ∧ (∀ p ∈ [Phoenix.SwcProp.spreadIdent "Hooks".toList, .shorthand "A".toList,
            .shorthand "B".toList],
          Phoenix.hitB ["...Hooks".toList, "A".toList] p = false → p ∈ qs) :=
  swc_remove_hooks_filters
    [.spreadIdent "Hooks".toList, .shorthand "A".toList, .shorthand "B".toList]
    ["...Hooks".toList, "A".toList]

/-- A list none of whose elements fires is not rewritten. -/
theorem rewriteFirstSome_eq_none {α : Type} (f : α → Option α) (l : List α)
    (h : ∀ a ∈ l, f a = none) : rewriteFirstSome f l = none := by
  induction l with
  | nil => rfl
  | cons a as ih =>
    have ha := h a (by simp)
    simp [rewriteFirstSome, ha, ih (fun b hb => h b (by simp [hb]))]

/-- The removal rewrite fires only on a hooks-keyed property. -/
theorem removeHookRw_none (names : List String) (p : OxProp)
    (h : isHooksKeyB p = false) : removeHookRw names p = none := by
  cases p with
  | objectProp key v sh =>
    cases key with
    | none => rfl
    | some k =>
      simp [isHooksKeyB] at h
      simp [removeHookRw, h]
  | spreadProp a => rfl

/-- C10: when the liveSocket variable and its constructor-call options object
exist but no hooks property is present, the removal path returns success and
appends a fresh empty `hooks` object at the end of the options object even
though nothing was removed. -/
theorem remove_hooks_creates_empty_hooks (opts : List OxProp) (objectNames : List String)
    (h : opts.all (fun p => !(isHooksKeyB p)) = true) :
    remove_objects_of_hooks_from_ast
        [.varDecl [⟨"liveSocket", some (.newE "LiveSocket" [.exprArg (.objectE opts)])⟩]]
        objectNames
      = .ok [.varDecl [⟨"liveSocket",
          some (.newE "LiveSocket" [.exprArg (.objectE (opts ++ [create_init_hooks]))])⟩]] := by
  have hnone : rewriteFirstSome (removeHookRw objectNames) opts = none := by
    apply rewriteFirstSome_eq_none
    intro p hp
    refine removeHookRw_none objectNames p ?_
    have := (List.all_eq_true.mp h) p hp
    simpa using this
  simp [remove_objects_of_hooks_from_ast, find_live_socket_node_from_ast,
    get_properties_rw, stmtRw, declRw, argRw, rewriteFirstSome,
    removeHooksInOptions, hnone]

/-- C10 witness: a concrete options object without a hooks property. -/
theorem remove_hooks_creates_empty_hooks_witness :
    remove_objects_of_hooks_from_ast
        [.varDecl [⟨"liveSocket", some (.newE "LiveSocket"
          [.exprArg (.objectE [.objectProp (some "x") .otherE false])])⟩]]
        ["A"]
      = .ok [.varDecl [⟨"liveSocket", some (.newE "LiveSocket"
          [.exprArg (.objectE ([.objectProp (some "x") .otherE false]
            ++ [create_init_hooks]))])⟩]] :=
  remove_hooks_creates_empty_hooks [.objectProp (some "x") .otherE false] ["A"] rfl

/-! ## Import manager: failure behavior and idempotence (claims C7, C4) -/

/-- A candidate import line that fails to parse, or parses to a body with
no import declaration, aborts the whole batch: the call returns an error, no
matter how many earlier lines were already processed.  (This is the part of
the documented failure contract the code does implement.) -/
theorem insertLoop_bad_line_aborts (lines : List ParserReturn) :
    ∀ body, lines.any badLineB = true → isErrB (insertLoop body lines) = true := by
  induction lines with
  | nil => intro body h; simp at h
  | cons line rest ih =>
    intro body h
    unfold insertLoop
    cases he : line.errors with
    | cons e es => rfl
    | nil =>
      cases hf : line.body.find? isImportB with
      | none => rfl
      | some imp =>
        have hbad : rest.any badLineB = true := by
          simp only [List.any_cons, Bool.or_eq_true] at h
          rcases h with h | h
          · exfalso; simp [badLineB, he, hf] at h
          · exact h
        show isErrB (if (body.any fun node => dupB node imp) = true
            then insertLoop body rest
            else insertLoop (insertAt (insertPos body) imp body) rest) = true
        by_cases hd : body.any (fun node => dupB node imp) = true
        · rw [if_pos hd]; exact ih body hbad
        · rw [if_neg hd]; exact ih _ hbad

/-- C7: evaluation of insert_import_to_ast at the failing input.  The file
content's parse recorded an error (oxc recovered with a partial body), yet
the call returns success with regenerated text: the Rust code never consults
the recorded errors of the file content, because `source_to_ast` — despite
its documented failure case — always returns `Ok`.  The claim (and the
documented contract) requires an error here. -/
theorem insert_import_ignores_file_parse_errors :
    insert_import_to_ast ⟨["Unexpected token"], [.otherStmt]⟩ [⟨[], [.importDecl "m"]⟩]
      = .ok [.importDecl "m", .otherStmt] := rfl

/-- The inserted element is a member of the result of `insertAt`. -/
theorem mem_insertAt {α : Type} (a : α) : ∀ (n : Nat) (l : List α), a ∈ insertAt n a l := by
  intro n l
  induction l generalizing n with
  | nil => simp [insertAt]
  | cons x xs ih =>
    cases n with
    | zero => simp [insertAt]
    | succ m => simpa [insertAt] using Or.inr (ih m)

/-- C4: inserting the same candidate import line into the result of a
successful insertion returns that result unchanged — after the first call the
body contains an import with the line's specifier, so the duplicate test
fires and the second call skips the line.  Quantifying over the error list
of the second parse emphasises that it is not consulted; with the external
parse/codegen round-trip this is exactly
insert(insert(T,S),S) = insert(T,S) at the text level. -/
theorem insert_import_idempotent (file : ParserReturn) (line : ParserReturn)
    (b2 : List OxStmt) (h : insert_import_to_ast file [line] = .ok b2) (errs2 : List String) :
    insert_import_to_ast ⟨errs2, b2⟩ [line] = .ok b2 := by
  have hmain : insertLoop file.body [line] = .ok b2 := h
  unfold insertLoop at hmain
  cases he : line.errors with
  | cons e es =>
    rw [he] at hmain
    exact absurd hmain (by simp)
  | nil =>
    rw [he] at hmain
    cases hf : line.body.find? isImportB with
    | none =>
      rw [hf] at hmain
      exact absurd hmain (by simp)
    | some imp =>
      rw [hf] at hmain
      have himp : isImportB imp = true := List.find?_some hf
      obtain ⟨s, rfl⟩ : ∃ s, imp = .importDecl s := by
        cases imp with
        | importDecl s => exact ⟨s, rfl⟩
        | varDecl ds => simp [isImportB] at himp
        | otherStmt => simp [isImportB] at himp
      have hmain2 : (if (file.body.any fun node => dupB node (.importDecl s)) = true
          then insertLoop file.body []
          else insertLoop (insertAt (insertPos file.body) (.importDecl s) file.body) [])
          = .ok b2 := hmain
      have hb2 : b2.any (fun node => dupB node (.importDecl s)) = true := by
        by_cases hd : file.body.any (fun node => dupB node (.importDecl s)) = true
        · rw [if_pos hd] at hmain2
          have hbody : file.body = b2 := by simpa [insertLoop] using hmain2
          rw [← hbody]; exact hd
        · rw [if_neg hd] at hmain2
          have hb : insertAt (insertPos file.body) (.importDecl s) file.body = b2 := by
            simpa [insertLoop] using hmain2
          rw [← hb]
          refine List.any_eq_true.mpr ⟨.importDecl s, mem_insertAt _ _ _, ?_⟩
          simp [dupB]
      show insertLoop b2 [line] = .ok b2
      simp [insertLoop, he, hf, hb2]

/-- C4 witness: a concrete double insertion. -/
theorem insert_import_idempotent_witness :
    insert_import_to_ast ⟨[], [.importDecl "m", .otherStmt]⟩ [⟨[], [.importDecl "p"]⟩]
      = .ok [.importDecl "m", .importDecl "p", .otherStmt] ∧
    insert_import_to_ast ⟨[], [.importDecl "m", .importDecl "p", .otherStmt]⟩
        [⟨[], [.importDecl "p"]⟩]
      = .ok [.importDecl "m", .importDecl "p", .otherStmt] :=
  ⟨rfl, insert_import_idempotent ⟨[], [.importDecl "m", .otherStmt]⟩ ⟨[], [.importDecl "p"]⟩
    [.importDecl "m", .importDecl "p", .otherStmt] rfl []⟩

/-! ## Import manager: insertion position and batch contiguity (claim C3) -/

/-- Inserting at the length of the left part lands between the parts. -/
theorem insertAt_length_append {α : Type} (X B : List α) (a : α) :
    insertAt X.length a (X ++ B) = X ++ a :: B := by
  induction X with
  | nil => cases B <;> rfl
  | cons x xs ih => simpa [insertAt] using ih

/-- The insertion position is zero exactly when the body has no import. -/
theorem insertPos_eq_zero_iff (body : List OxStmt) :
    insertPos body = 0 ↔ body.all (fun t => !isImportB t) = true := by
  induction body with
  | nil => simp [insertPos]
  | cons s rest ih =>
    cases hr : insertPos rest with
    | zero =>
      cases hs : isImportB s <;>
        simp [insertPos, hr, hs, List.all_cons, ← ih]
    | succ n =>
      have hnot : ¬ rest.all (fun t => !isImportB t) = true := by
        intro hall
        rw [← ih] at hall
        omega
      simp [insertPos, hr, List.all_cons, hnot]

/-- Appending one import right before an import-free tail puts the insertion
position immediately after it. -/
theorem noImports_insertPos_append (X B : List OxStmt) (s : String)
    (hB : B.all (fun t => !isImportB t) = true) :
    insertPos (X ++ .importDecl s :: B) = X.length + 1 := by
  induction X with
  | nil =>
    have h0 : insertPos B = 0 := (insertPos_eq_zero_iff B).mpr hB
    simp [insertPos, h0, isImportB]
  | cons x xs ih => simp [insertPos, ih]

/-- The insertion position never exceeds the body length. -/
theorem insertPos_le_length (body : List OxStmt) : insertPos body ≤ body.length := by
  induction body with
  | nil => simp [insertPos]
  | cons s rest ih =>
    cases hr : insertPos rest with
    | zero =>
      cases hs : isImportB s <;> simp [insertPos, hr, hs]
    | succ n =>
      rw [hr] at ih
      simp only [insertPos, hr, List.length_cons]
      omega

/-- Everything after the insertion position is import-free. -/
theorem drop_insertPos_noImports (body : List OxStmt) :
    (body.drop (insertPos body)).all (fun t => !isImportB t) = true := by
  induction body with
  | nil => rfl
  | cons s rest ih =>
    cases hr : insertPos rest with
    | zero =>
      have hall : rest.all (fun t => !isImportB t) = true :=
        (insertPos_eq_zero_iff rest).mp hr
      cases hs : isImportB s
      · simp [insertPos, hr, hs, List.all_cons, hall]
      · simp [insertPos, hr, hs, hall]
    | succ n =>
      simp only [insertPos, hr]
      rw [List.drop_succ_cons, ← hr]
      exact ih

/-- `importSpecs` distributes over append. -/
theorem importSpecs_append (A B : List OxStmt) :
    importSpecs (A ++ B) = importSpecs A ++ importSpecs B := by
  induction A with
  | nil => rfl
  | cons a as ih => cases a <;> simp [importSpecs, ih]

/-- An import-free body contributes no specifiers. -/
theorem noImports_importSpecs (B : List OxStmt)
    (hB : B.all (fun t => !isImportB t) = true) : importSpecs B = [] := by
  induction B with
  | nil => rfl
  | cons b bs ih =>
    simp only [List.all_cons, Bool.and_eq_true] at hB
    cases b with
    | importDecl t => simp [isImportB] at hB
    | varDecl ds => simpa [importSpecs] using ih hB.2
    | otherStmt => simpa [importSpecs] using ih hB.2

/-- The duplicate scan over a body equals membership of the specifier in the
body's import specifiers. -/
theorem any_dup_eq_contains (L : List OxStmt) (s : String) :
    (L.any fun node => dupB node (.importDecl s)) = containsStr (importSpecs L) s := by
  induction L with
  | nil => rfl
  | cons a as ih =>
    cases a with
    | importDecl t =>
      show ((t == s) || (as.any fun node => dupB node (.importDecl s)))
        = ((t == s) || containsStr (importSpecs as) s)
      rw [ih]
    | varDecl ds =>
      show (false || (as.any fun node => dupB node (.importDecl s)))
        = containsStr (importSpecs as) s
      rw [Bool.false_or, ih]
    | otherStmt =>
      show (false || (as.any fun node => dupB node (.importDecl s)))
        = containsStr (importSpecs as) s
      rw [Bool.false_or, ih]

/-- Invariant of the insertion loop: the body is split as
original-head `A`, already-inserted batch `K` (all imports), import-free tail
`B`, with the insertion position sitting right after `A ++ K`.  Processing
the remaining lines appends exactly the sequentially deduplicated imports of
those lines to `K`. -/
theorem insertLoop_split (lines : List ParserReturn) :
    ∀ (A K B : List OxStmt),
    K.all isImportB = true →
    B.all (fun t => !isImportB t) = true →
    insertPos (A ++ K ++ B) = A.length + K.length →
    lines.all goodLineB = true →
    insertLoop (A ++ K ++ B) lines
      = .ok (A ++ (K ++ specKept (importSpecs (A ++ K)) lines) ++ B) := by
  induction lines with
  | nil =>
    intro A K B hK hB hPos hG
    simp [insertLoop, specKept]
  | cons line rest ih =>
    intro A K B hK hB hPos hG
    simp only [List.all_cons, Bool.and_eq_true] at hG
    obtain ⟨hgood, hrest⟩ := hG
    simp only [goodLineB, Bool.and_eq_true] at hgood
    obtain ⟨herrs, hfind⟩ := hgood
    have he : line.errors = [] := by simpa using herrs
    obtain ⟨imp, hf⟩ := Option.isSome_iff_exists.mp hfind
    have himp : isImportB imp = true := List.find?_some hf
    obtain ⟨s, rfl⟩ : ∃ t, imp = OxStmt.importDecl t := by
      cases imp with
      | importDecl t => exact ⟨t, rfl⟩
      | varDecl ds => simp [isImportB] at himp
      | otherStmt => simp [isImportB] at himp
    have hspec : lineSpec line = some s := by simp [lineSpec, hf]
    have hspecsAKB : importSpecs (A ++ K ++ B) = importSpecs (A ++ K) := by
      rw [importSpecs_append (A ++ K) B, noImports_importSpecs B hB, List.append_nil]
    unfold insertLoop
    rw [he, hf]
    show (if ((A ++ K ++ B).any fun node => dupB node (.importDecl s)) = true
        then insertLoop (A ++ K ++ B) rest
        else insertLoop
          (insertAt (insertPos (A ++ K ++ B)) (.importDecl s) (A ++ K ++ B)) rest)
      = .ok (A ++ (K ++ specKept (importSpecs (A ++ K)) (line :: rest)) ++ B)
    rw [any_dup_eq_contains, hspecsAKB]
    cases hc : containsStr (importSpecs (A ++ K)) s
    case true =>
      rw [if_pos rfl, ih A K B hK hB hPos hrest]
      have hstep : specKept (importSpecs (A ++ K)) (line :: rest)
          = specKept (importSpecs (A ++ K)) rest := by
        simp [specKept, hspec, hc]
      rw [hstep]
    case false =>
      rw [if_neg Bool.false_ne_true]
      have hins : insertAt (insertPos (A ++ K ++ B)) (OxStmt.importDecl s) (A ++ K ++ B)
          = A ++ (K ++ [OxStmt.importDecl s]) ++ B := by
        rw [hPos]
        have hlen : A.length + K.length = (A ++ K).length := (List.length_append A K).symm
        rw [hlen, insertAt_length_append]
        simp
      rw [hins]
      have hK2 : (K ++ [OxStmt.importDecl s]).all isImportB = true := by
        simp [List.all_append, hK, isImportB]
      have hPos2 : insertPos (A ++ (K ++ [OxStmt.importDecl s]) ++ B)
          = A.length + (K ++ [OxStmt.importDecl s]).length := by
        have hposcalc := noImports_insertPos_append (A ++ K) B s hB
        calc insertPos (A ++ (K ++ [OxStmt.importDecl s]) ++ B)
            = insertPos ((A ++ K) ++ OxStmt.importDecl s :: B) := by simp
          _ = (A ++ K).length + 1 := hposcalc
          _ = A.length + (K ++ [OxStmt.importDecl s]).length := by
              simp only [List.length_append, List.length_cons, List.length_nil]
              omega
      rw [ih A (K ++ [OxStmt.importDecl s]) B hK2 hB hPos2 hrest]
      have hspecs2 : importSpecs (A ++ (K ++ [OxStmt.importDecl s]))
          = importSpecs (A ++ K) ++ [s] := by
        simp [importSpecs_append, importSpecs]
      rw [hspecs2]
      have hstep : specKept (importSpecs (A ++ K)) (line :: rest)
          = OxStmt.importDecl s :: specKept (importSpecs (A ++ K) ++ [s]) rest := by
        simp [specKept, hspec, hc]
      rw [hstep]
      simp

/-- C3: with every candidate line well formed, the batch is inserted as one
contiguous block of the sequentially deduplicated imports, in the order
given, at the insertion position of the original body — index 0 when the
program has no import declaration, or else immediately after the last
original import declaration; the statements before and after that position
are untouched, so the block is not interleaved with non-import statements. -/
theorem insert_import_batch_contiguous (file : ParserReturn) (lines : List ParserReturn)
    (hG : lines.all goodLineB = true) :
    insert_import_to_ast file lines
      = .ok (file.body.take (insertPos file.body)
          ++ specKept (importSpecs file.body) lines
          ++ file.body.drop (insertPos file.body)) := by
  have hle : insertPos file.body ≤ file.body.length := insertPos_le_length file.body
  have hsplit := List.take_append_drop (insertPos file.body) file.body
  have hBno : (file.body.drop (insertPos file.body)).all (fun t => !isImportB t) = true :=
    drop_insertPos_noImports file.body
  have hlen : (file.body.take (insertPos file.body)).length = insertPos file.body := by
    simp [List.length_take, Nat.min_eq_left hle]
  have hPos : insertPos (file.body.take (insertPos file.body) ++ ([] : List OxStmt)
      ++ file.body.drop (insertPos file.body))
      = (file.body.take (insertPos file.body)).length + ([] : List OxStmt).length := by
    simp only [List.append_nil, List.length_nil, Nat.add_zero]
    rw [hsplit, hlen]
  have hspecs : importSpecs (file.body.take (insertPos file.body) ++ ([] : List OxStmt))
      = importSpecs file.body := by
    rw [List.append_nil]
    conv_rhs => rw [← hsplit]
    rw [importSpecs_append, noImports_importSpecs _ hBno, List.append_nil]
  have hmain := insertLoop_split lines (file.body.take (insertPos file.body)) []
    (file.body.drop (insertPos file.body)) rfl hBno hPos hG
  rw [hspecs] at hmain
  unfold insert_import_to_ast
  calc insertLoop file.body lines
      = insertLoop (file.body.take (insertPos file.body) ++ ([] : List OxStmt)
          ++ file.body.drop (insertPos file.body)) lines := by
        rw [List.append_nil, hsplit]
    _ = .ok (file.body.take (insertPos file.body)
          ++ (([] : List OxStmt) ++ specKept (importSpecs file.body) lines)
          ++ file.body.drop (insertPos file.body)) := hmain
    _ = .ok (file.body.take (insertPos file.body)
          ++ specKept (importSpecs file.body) lines
          ++ file.body.drop (insertPos file.body)) := by simp

/-- C3 witness: one original import followed by other code; a batch of three
lines, the middle one a duplicate of the original import. -/
theorem insert_import_batch_contiguous_witness :
    insert_import_to_ast ⟨[], [.importDecl "a", .otherStmt]⟩
        [⟨[], [.importDecl "b"]⟩, ⟨[], [.importDecl "a"]⟩, ⟨[], [.importDecl "c"]⟩]
      = .ok ([OxStmt.importDecl "a"].take (insertPos [.importDecl "a", .otherStmt])
          ++ specKept (importSpecs [.importDecl "a", .otherStmt])
              [⟨[], [.importDecl "b"]⟩, ⟨[], [.importDecl "a"]⟩, ⟨[], [.importDecl "c"]⟩]
          ++ [OxStmt.importDecl "a", .otherStmt].drop
              (insertPos [.importDecl "a", .otherStmt])) := by
  have h := insert_import_batch_contiguous ⟨[], [.importDecl "a", .otherStmt]⟩
    [⟨[], [.importDecl "b"]⟩, ⟨[], [.importDecl "a"]⟩, ⟨[], [.importDecl "c"]⟩] rfl
  simpa using h

/-! ## Statistics collector (claim C8) -/

theorem addStats_assoc (a b c : Stats.ASTStatistics) :
    Stats.addStats (Stats.addStats a b) c = Stats.addStats a (Stats.addStats b c) := by
  cases a; cases b; cases c
  simp [Stats.addStats, Nat.add_assoc]

theorem addStats_empty_left (a : Stats.ASTStatistics) :
    Stats.addStats Stats.emptyStats a = a := by
  cases a; simp [Stats.addStats, Stats.emptyStats]

mutual
/-- The stateful visitor adds exactly the occurrence counts of the node. -/
theorem visitNode_eq_count : ∀ (s : Stats.ASTStatistics) (n : Stats.JsNode),
    Stats.visitNode s n = Stats.addStats s (Stats.countNode n)
  | s, .importDeclN cs => by
      simp only [Stats.visitNode, Stats.countNode]
      rw [visitList_eq_count, ← addStats_assoc]
      cases s; simp [Stats.addStats]
  | s, .classN cs => by
      simp only [Stats.visitNode, Stats.countNode]
      rw [visitList_eq_count, ← addStats_assoc]
      cases s; simp [Stats.addStats]
  | s, .functionN cs => by
      simp only [Stats.visitNode, Stats.countNode]
      rw [visitList_eq_count, ← addStats_assoc]
      cases s; simp [Stats.addStats]
  | s, .debuggerN => by
      simp only [Stats.visitNode, Stats.countNode]
      cases s; simp [Stats.addStats]
  | s, .tryN cs => by
      simp only [Stats.visitNode, Stats.countNode]
      rw [visitList_eq_count, ← addStats_assoc]
      cases s; simp [Stats.addStats]
  | s, .throwN cs => by
      simp only [Stats.visitNode, Stats.countNode]
      rw [visitList_eq_count, ← addStats_assoc]
      cases s; simp [Stats.addStats]
  | s, .otherN cs => by
      simp only [Stats.visitNode, Stats.countNode]
      rw [visitList_eq_count]

/-- The stateful visitor over a forest adds exactly its occurrence counts. -/
theorem visitList_eq_count : ∀ (s : Stats.ASTStatistics) (ns : Stats.JsForest),
    Stats.visitList s ns = Stats.addStats s (Stats.countList ns)
  | s, .nilF => by
      simp only [Stats.visitList, Stats.countList]
      cases s; simp [Stats.addStats, Stats.emptyStats]
  | s, .consF n ns => by
      simp only [Stats.visitList, Stats.countList]
      rw [visitList_eq_count (Stats.visitNode s n) ns, visitNode_eq_count s n, addStats_assoc]
end

/-- C8: the collector counts each matching node once per occurrence, nested
occurrences included, in one read-only pass: on a source whose recorded
occurrence counts are 1 function, 1 class, 2 debuggers, 2 imports, 0 trys and
0 throws (and whose parse recorded no error), source_visitor returns exactly
those six counters. -/
theorem source_visitor_exact (parsed : Stats.StatsParse)
    (he : parsed.errors = [])
    (hc : Stats.countList parsed.body = ⟨1, 1, 2, 2, 0, 0⟩) :
    Stats.source_visitor parsed = .ok ⟨1, 1, 2, 2, 0, 0⟩ := by
  unfold Stats.source_visitor
  rw [he]
  rw [visitList_eq_count, addStats_empty_left, hc]

/-- C8 witness: two imports, one class holding a debugger, one function
holding a debugger. -/
theorem source_visitor_exact_witness :
    Stats.source_visitor
        ⟨[], .consF (.importDeclN .nilF) (.consF (.importDeclN .nilF)
          (.consF (.classN (.consF .debuggerN .nilF))
            (.consF (.functionN (.consF .debuggerN .nilF)) .nilF)))⟩
      = .ok ⟨1, 1, 2, 2, 0, 0⟩ :=
  source_visitor_exact
    ⟨[], .consF (.importDeclN .nilF) (.consF (.importDeclN .nilF)
      (.consF (.classN (.consF .debuggerN .nilF))
        (.consF (.functionN (.consF .debuggerN .nilF)) .nilF)))⟩
    rfl rfl

/-! ## CSS comment attachment (claim C9) -/

/-- The trimmed text of a comment occurs within the comment. -/
theorem trimChars_within (c : List Char) : Css.trimChars c <:+: c := by
  have h1 : c.dropWhile Char.isWhitespace <:+ c := List.dropWhile_suffix _
  have h3 : (c.dropWhile Char.isWhitespace).reverse.dropWhile Char.isWhitespace
      <:+ (c.dropWhile Char.isWhitespace).reverse := List.dropWhile_suffix _
  obtain ⟨t, ht⟩ := h3
  have h2 : Css.trimChars c <+: c.dropWhile Char.isWhitespace := by
    refine ⟨t.reverse, ?_⟩
    calc Css.trimChars c ++ t.reverse
        = (t ++ (c.dropWhile Char.isWhitespace).reverse.dropWhile Char.isWhitespace).reverse := by
          rw [List.reverse_append]; rfl
      _ = (c.dropWhile Char.isWhitespace).reverse.reverse := by rw [ht]
      _ = c.dropWhile Char.isWhitespace := List.reverse_reverse _
  exact h2.isInfix.trans h1.isInfix

/-- Appending a comment extends the line's text on the right. -/
theorem flat_append_comment (l : Css.AnnLine) (c : List Char) :
    (Css.AnnLine.mk l.base (l.comments ++ [c])).flat = l.flat ++ c := by
  simp [Css.AnnLine.flat]

/-- One attachment pass preserves the per-line invariant. -/
theorem attachOne_preserves (pair : List Char × List Char) :
    ∀ (lines : List Css.AnnLine), (∀ l ∈ lines, Css.lineOk l) →
    ∀ l2 ∈ Css.attachOne pair lines, Css.lineOk l2 := by
  intro lines
  induction lines with
  | nil => intro h l2 hl2; simp [Css.attachOne] at hl2
  | cons l ls ih =>
    intro h l2 hl2
    have hl : Css.lineOk l := h l (by simp)
    have hls : ∀ x ∈ ls, Css.lineOk x := fun x hx => h x (by simp [hx])
    simp only [Css.attachOne] at hl2
    by_cases h1 : Css.containsB l.flat (Css.needleFor pair.1) = true
    · rw [if_pos h1] at hl2
      by_cases h2 : Css.containsB l.flat (Css.trimChars pair.2) = true
      · rw [if_pos h2] at hl2
        rcases List.mem_cons.mp hl2 with rfl | hmem
        · exact hl
        · exact hls _ hmem
      · rw [if_neg h2] at hl2
        have h2f : ¬ Css.trimChars pair.2 <:+: l.flat := by
          refine of_decide_eq_false ?_
          simpa [Css.containsB] using h2
        rcases List.mem_cons.mp hl2 with rfl | hmem
        · constructor
          · have hnotmem : pair.2 ∉ l.comments := fun hmem2 => h2f (hl.2 pair.2 hmem2)
            rw [List.nodup_append]
            exact ⟨hl.1, List.nodup_singleton _,
              fun a ha hb => hnotmem (by simpa using (List.mem_singleton.mp hb) ▸ ha)⟩
          · intro c hc
            rw [flat_append_comment]
            rcases List.mem_append.mp hc with hc1 | hc2
            · exact (hl.2 c hc1).trans
                (show l.flat <+: l.flat ++ pair.2 from ⟨pair.2, rfl⟩).isInfix
            · rw [List.mem_singleton.mp hc2]
              exact (trimChars_within pair.2).trans (List.suffix_append l.flat pair.2).isInfix
        · exact hls _ hmem
    · rw [if_neg h1] at hl2
      rcases List.mem_cons.mp hl2 with rfl | hmem
      · exact hl
      · exact ih hls _ hmem

/-- Folding attachment passes preserves the per-line invariant. -/
theorem attach_foldl_preserves (ps : List (List Char × List Char)) :
    ∀ (lines : List Css.AnnLine), (∀ l ∈ lines, Css.lineOk l) →
    ∀ l2 ∈ ps.foldl (fun ls pair => Css.attachOne pair ls) lines, Css.lineOk l2 := by
  induction ps with
  | nil => intro lines h; simpa using h
  | cons p ps ih =>
    intro lines h
    exact ih _ (attachOne_preserves p lines h)

/-- C9: in the comment-preserving CSS emission, a comment text is never
appended to the same regenerated line twice — for every list of regenerated
rule lines and every list of collected (anchor, comment) pairs, each line of
the output carries pairwise distinct appended comments, so the emitted line
contains each attached comment at most once. -/
theorem css_comment_never_duplicated (ruleLines : List (List Char))
    (collected : List (List Char × List Char)) :
    ∀ l ∈ Css.generate_css_with_comments ruleLines collected, l.comments.Nodup := by
  intro l hl
  have hbase : ∀ l2 ∈ ruleLines.map (fun b => Css.AnnLine.mk b []), Css.lineOk l2 := by
    intro l2 hl2
    simp only [List.mem_map] at hl2
    obtain ⟨b, _, rfl⟩ := hl2
    exact ⟨List.nodup_nil, by simp⟩
  exact (attach_foldl_preserves collected.reverse _ hbase l hl).1

/-- C9 witness: two collected pairs attempt to attach the same comment to the
same line; the output line carries it once. -/
theorem css_comment_never_duplicated_witness :
    (Css.AnnLine.mk "color: red".toList [" /* note */".toList]).comments.Nodup :=
  css_comment_never_duplicated ["color: red".toList]
    [("color".toList, " /* note */".toList), ("color".toList, " /* note */".toList)]
    (Css.AnnLine.mk "color: red".toList [" /* note */".toList]) (by decide)

end IgniterJs
